import Mathlib

/-!
Verification of the diagram pre-rendering script (scripts/render_whitepaper.py).

The script reads a Markdown document, extracts fenced mermaid blocks with the
lazy regex pattern matching an opening fence line, a shortest payload, and a
closing fence, renders each block with an external tool, and substitutes image
references back using a mutable counter inside a second pass of the same
pattern over the same text.

The document is modelled as `List Char`.  The regex engine's behaviour on this
fixed pattern is embedded directly:

* `findClose x` returns the payload up to the first occurrence of the closing
  delimiter in `x` together with the text after that delimiter (the lazy
  semantics of the non-greedy group), or `none` when no closing delimiter
  occurs anywhere in `x`.
* `finditer pos l` models `re.finditer`: it scans left to right; at a position
  where the opening delimiter matches and a closing delimiter follows, a match
  is produced (start position and payload) and scanning resumes after the
  match; at a position where the opening delimiter matches but no closing
  delimiter ever follows, no further match is possible anywhere (a later match
  would need the three backticks of its own opening delimiter, which would
  themselves be a closing delimiter for the current attempt), so the scan
  stops.
* `subst rendered k l` models `re.sub` with the script's `replace_block`
  callback: the k-th match in document order (k counting from the initial
  counter value) becomes an image reference when `rendered k` holds a path and
  stays untouched otherwise.

Recursion is implemented with an explicit fuel parameter bounded by the length
of the remaining text, so that all functions compute by kernel reduction; the
wrappers fix the fuel to the text length and fuel-irrelevance lemmas recover
the natural unfolding equations.
-/

/-- The opening delimiter of a diagram block: the fenced language-tag line
including its terminating newline. -/
def openDelim : List Char := "```mermaid\n".toList

/-- The closing delimiter of a diagram block. -/
def closeDelim : List Char := "```".toList

/-- The full matched span of a block with payload `p` (group 0 of the regex
match). -/
def fullSpan (p : List Char) : List Char := openDelim ++ p ++ closeDelim

/-- The artifact path the script records for block `i`
(`/tmp/mermaid_diagrams/d{i}.png`). -/
def pngPath (i : Nat) : List Char :=
  "/tmp/mermaid_diagrams/d".toList ++ (Nat.repr i).toList ++ ".png".toList

/-- The image reference substituted for block `i` whose recorded artifact path
is `path` (the f-string in `replace_block`). -/
def imageRef (i : Nat) (path : List Char) : List Char :=
  "![Diagram ".toList ++ (Nat.repr i).toList ++ "](".toList ++ path ++ ")".toList

/-- Lazy search for the closing delimiter: returns the shortest payload `p`
and the rest `r` after the closing delimiter, with `x = p ++ closeDelim ++ r`,
or `none` when the closing delimiter occurs nowhere in `x`. -/
def findClose : List Char → Option (List Char × List Char)
  | [] => none
  | c :: cs =>
    if closeDelim.isPrefixOf (c :: cs) then some ([], cs.drop 2)
    else
      match findClose cs with
      | some (p, r) => some (c :: p, r)
      | none => none

/-- Fuel-bounded model of `re.finditer` over the block pattern, reporting the
start position and payload of every match in document order. -/
def finditerF : Nat → Nat → List Char → List (Nat × List Char)
  | 0, _, _ => []
  | _ + 1, _, [] => []
  | fuel + 1, pos, c :: cs =>
    if openDelim.isPrefixOf (c :: cs) then
      match findClose ((c :: cs).drop 11) with
      | some (p, r) => (pos, p) :: finditerF fuel (pos + 14 + p.length) r
      | none => []
    else finditerF fuel (pos + 1) cs

/-- The extraction pass (`re.finditer` on the document). -/
def finditer (pos : Nat) (l : List Char) : List (Nat × List Char) :=
  finditerF l.length pos l

/-- The payloads of the extracted blocks in document order. -/
def payloads (l : List Char) : List (List Char) :=
  (finditer 0 l).map Prod.snd

/-- Fuel-bounded model of `re.sub` with the `replace_block` callback: `k` is
the value of the mutable counter, `rendered` the mapping from block index to
recorded artifact path. -/
def substF (rendered : Nat → Option (List Char)) : Nat → Nat → List Char → List Char
  | 0, _, _ => []
  | _ + 1, _, [] => []
  | fuel + 1, k, c :: cs =>
    if openDelim.isPrefixOf (c :: cs) then
      match findClose ((c :: cs).drop 11) with
      | some (p, r) =>
        (match rendered k with
          | some path => imageRef k path
          | none => fullSpan p) ++ substF rendered fuel (k + 1) r
      | none => c :: cs
    else c :: substF rendered fuel k cs

/-- The assembly pass (`re.sub` on the document). -/
def subst (rendered : Nat → Option (List Char)) (k : Nat) (l : List Char) : List Char :=
  substF rendered l.length k l

/-- Fuel-bounded trace of the substitution pass: the matches it encounters, in
order, each with the counter value used to look up its outcome and the matched
span (group 0) passed to the callback. -/
def substTraceF : Nat → Nat → List Char → List (Nat × List Char)
  | 0, _, _ => []
  | _ + 1, _, [] => []
  | fuel + 1, k, c :: cs =>
    if openDelim.isPrefixOf (c :: cs) then
      match findClose ((c :: cs).drop 11) with
      | some (p, r) => (k, fullSpan p) :: substTraceF fuel (k + 1) r
      | none => []
    else substTraceF fuel k cs

/-- The trace of the substitution pass starting with counter value `k`. -/
def substTrace (k : Nat) (l : List Char) : List (Nat × List Char) :=
  substTraceF l.length k l

-- ### Basic facts about `findClose`

theorem findClose_sound :
    ∀ x p r, findClose x = some (p, r) → x = p ++ closeDelim ++ r := by
  intro x
  induction x with
  | nil => intro p r h; simp [findClose] at h
  | cons c cs ih =>
    intro p r h
    unfold findClose at h
    by_cases hc : closeDelim.isPrefixOf (c :: cs)
    · rw [if_pos hc] at h
      simp only [Option.some.injEq, Prod.mk.injEq] at h
      obtain ⟨rfl, rfl⟩ := h
      simp only [ List.isPrefixOf_iff_prefix] at hc
      obtain ⟨t, ht⟩ := hc
      have h3 : t = cs.drop 2 := by
        have h4 := congrArg (List.drop 3) ht
        rw [List.drop_left' (by decide)] at h4
        simpa using h4
      subst h3
      simpa using ht.symm
    · rw [if_neg hc] at h
      cases hfc : findClose cs with
      | none => rw [hfc] at h; exact absurd h (by simp)
      | some pr =>
        obtain ⟨p', r'⟩ := pr
        rw [hfc] at h
        simp only [Option.some.injEq, Prod.mk.injEq] at h
        obtain ⟨rfl, rfl⟩ := h
        have := ih p' r' hfc
        simp [this]

theorem findClose_le :
    ∀ x j, closeDelim <+: x.drop j →
      ∃ p r, findClose x = some (p, r) ∧ p.length ≤ j := by
  intro x
  induction x with
  | nil =>
    intro j h
    rw [List.drop_nil] at h
    rw [List.prefix_nil] at h
    exact absurd h (by decide)
  | cons c cs ih =>
    intro j h
    by_cases hc : closeDelim.isPrefixOf (c :: cs)
    · exact ⟨[], cs.drop 2, by simp [findClose, hc], Nat.zero_le j⟩
    · cases j with
      | zero =>
        rw [List.drop_zero] at h
        rw [← List.isPrefixOf_iff_prefix] at h
        exact absurd h hc
      | succ j' =>
        have h' : closeDelim <+: cs.drop j' := by simpa using h
        obtain ⟨p, r, hfc, hlen⟩ := ih j' h'
        refine ⟨c :: p, r, ?_, by simpa using Nat.succ_le_succ hlen⟩
        simp [findClose, hc, hfc]

theorem findClose_none {x : List Char} (h : findClose x = none) :
    ∀ j, ¬ closeDelim <+: x.drop j := by
  intro j hj
  obtain ⟨p, r, hfc, _⟩ := findClose_le x j hj
  rw [h] at hfc
  exact absurd hfc (by simp)

theorem findClose_lazy :
    ∀ x p r, findClose x = some (p, r) →
      ∀ q, q < p.length → ¬ closeDelim <+: x.drop q := by
  intro x
  induction x with
  | nil => intro p r h; simp [findClose] at h
  | cons c cs ih =>
    intro p r h q hq
    unfold findClose at h
    by_cases hc : closeDelim.isPrefixOf (c :: cs)
    · rw [if_pos hc] at h
      simp only [Option.some.injEq, Prod.mk.injEq] at h
      obtain ⟨rfl, rfl⟩ := h
      simp at hq
    · rw [if_neg hc] at h
      cases hfc : findClose cs with
      | none => rw [hfc] at h; exact absurd h (by simp)
      | some pr =>
        obtain ⟨p', r'⟩ := pr
        rw [hfc] at h
        simp only [Option.some.injEq, Prod.mk.injEq] at h
        obtain ⟨rfl, rfl⟩ := h
        cases q with
        | zero =>
          rw [List.drop_zero, ← List.isPrefixOf_iff_prefix]
          exact fun hx => hc hx
        | succ q' =>
          intro hpre
          exact ih p' r' hfc q' (by simpa using hq) (by simpa using hpre)

theorem findClose_length {x p r : List Char} (h : findClose x = some (p, r)) :
    x.length = p.length + 3 + r.length := by
  have hs := findClose_sound x p r h
  have h3 : closeDelim.length = 3 := by decide
  rw [hs]
  simp [List.length_append, h3]
  omega

-- ### Fuel irrelevance and unfolding equations

theorem finditerF_fuel :
    ∀ n f₁ f₂ pos (l : List Char), l.length ≤ n → l.length ≤ f₁ → l.length ≤ f₂ →
      finditerF f₁ pos l = finditerF f₂ pos l := by
  intro n
  induction n with
  | zero =>
    intro f₁ f₂ pos l hn _ _
    have : l = [] := List.length_eq_zero.mp (Nat.le_zero.mp hn)
    subst this
    cases f₁ <;> cases f₂ <;> rfl
  | succ n ih =>
    intro f₁ f₂ pos l hn h₁ h₂
    cases l with
    | nil => cases f₁ <;> cases f₂ <;> rfl
    | cons c cs =>
      simp only [List.length_cons] at hn h₁ h₂
      cases f₁ with
      | zero => omega
      | succ g₁ =>
        cases f₂ with
        | zero => omega
        | succ g₂ =>
          by_cases ho : openDelim.isPrefixOf (c :: cs)
          · cases hfc : findClose ((c :: cs).drop 11) with
            | none => simp only [finditerF, if_pos ho, hfc]
            | some pr =>
              obtain ⟨p, r⟩ := pr
              have hlen := findClose_length hfc
              simp only [List.length_drop, List.length_cons] at hlen
              simp only [finditerF, if_pos ho, hfc]
              congr 1
              exact ih g₁ g₂ _ r (by omega) (by omega) (by omega)
          · simp only [finditerF, if_neg ho]
            exact ih g₁ g₂ _ cs (by omega) (by omega) (by omega)

theorem substF_fuel (rendered : Nat → Option (List Char)) :
    ∀ n f₁ f₂ k (l : List Char), l.length ≤ n → l.length ≤ f₁ → l.length ≤ f₂ →
      substF rendered f₁ k l = substF rendered f₂ k l := by
  intro n
  induction n with
  | zero =>
    intro f₁ f₂ k l hn _ _
    have : l = [] := List.length_eq_zero.mp (Nat.le_zero.mp hn)
    subst this
    cases f₁ <;> cases f₂ <;> rfl
  | succ n ih =>
    intro f₁ f₂ k l hn h₁ h₂
    cases l with
    | nil => cases f₁ <;> cases f₂ <;> rfl
    | cons c cs =>
      simp only [List.length_cons] at hn h₁ h₂
      cases f₁ with
      | zero => omega
      | succ g₁ =>
        cases f₂ with
        | zero => omega
        | succ g₂ =>
          by_cases ho : openDelim.isPrefixOf (c :: cs)
          · cases hfc : findClose ((c :: cs).drop 11) with
            | none => simp only [substF, if_pos ho, hfc]
            | some pr =>
              obtain ⟨p, r⟩ := pr
              have hlen := findClose_length hfc
              simp only [List.length_drop, List.length_cons] at hlen
              simp only [substF, if_pos ho, hfc]
              congr 1
              exact ih g₁ g₂ _ r (by omega) (by omega) (by omega)
          · simp only [substF, if_neg ho]
            rw [ih g₁ g₂ k cs (by omega) (by omega) (by omega)]

theorem substTraceF_fuel :
    ∀ n f₁ f₂ k (l : List Char), l.length ≤ n → l.length ≤ f₁ → l.length ≤ f₂ →
      substTraceF f₁ k l = substTraceF f₂ k l := by
  intro n
  induction n with
  | zero =>
    intro f₁ f₂ k l hn _ _
    have : l = [] := List.length_eq_zero.mp (Nat.le_zero.mp hn)
    subst this
    cases f₁ <;> cases f₂ <;> rfl
  | succ n ih =>
    intro f₁ f₂ k l hn h₁ h₂
    cases l with
    | nil => cases f₁ <;> cases f₂ <;> rfl
    | cons c cs =>
      simp only [List.length_cons] at hn h₁ h₂
      cases f₁ with
      | zero => omega
      | succ g₁ =>
        cases f₂ with
        | zero => omega
        | succ g₂ =>
          by_cases ho : openDelim.isPrefixOf (c :: cs)
          · cases hfc : findClose ((c :: cs).drop 11) with
            | none => simp only [substTraceF, if_pos ho, hfc]
            | some pr =>
              obtain ⟨p, r⟩ := pr
              have hlen := findClose_length hfc
              simp only [List.length_drop, List.length_cons] at hlen
              simp only [substTraceF, if_pos ho, hfc]
              congr 1
              exact ih g₁ g₂ _ r (by omega) (by omega) (by omega)
          · simp only [substTraceF, if_neg ho]
            exact ih g₁ g₂ k cs (by omega) (by omega) (by omega)

theorem finditer_cons_match {c : Char} {cs p r : List Char}
    (ho : openDelim.isPrefixOf (c :: cs))
    (hfc : findClose ((c :: cs).drop 11) = some (p, r)) (pos : Nat) :
    finditer pos (c :: cs) = (pos, p) :: finditer (pos + 14 + p.length) r := by
  have hlen := findClose_length hfc
  simp only [List.length_drop, List.length_cons] at hlen
  show finditerF (cs.length + 1) pos (c :: cs) = _
  simp only [finditerF, if_pos ho, hfc]
  congr 1
  exact finditerF_fuel cs.length _ _ _ r (by omega) (by omega) (by omega)

theorem finditer_cons_nomatch {c : Char} {cs : List Char}
    (ho : openDelim.isPrefixOf (c :: cs))
    (hfc : findClose ((c :: cs).drop 11) = none) (pos : Nat) :
    finditer pos (c :: cs) = [] := by
  show finditerF (cs.length + 1) pos (c :: cs) = _
  simp only [finditerF, if_pos ho, hfc]

theorem finditer_cons_skip {c : Char} {cs : List Char}
    (ho : ¬ openDelim.isPrefixOf (c :: cs)) (pos : Nat) :
    finditer pos (c :: cs) = finditer (pos + 1) cs := by
  show finditerF (cs.length + 1) pos (c :: cs) = _
  simp only [finditerF, if_neg ho]
  rfl

theorem subst_nil (rendered : Nat → Option (List Char)) (k : Nat) :
    subst rendered k [] = [] := rfl

theorem subst_cons_match (rendered : Nat → Option (List Char)) {c : Char}
    {cs p r : List Char} (ho : openDelim.isPrefixOf (c :: cs))
    (hfc : findClose ((c :: cs).drop 11) = some (p, r)) (k : Nat) :
    subst rendered k (c :: cs) =
      (match rendered k with
        | some path => imageRef k path
        | none => fullSpan p) ++ subst rendered (k + 1) r := by
  have hlen := findClose_length hfc
  simp only [List.length_drop, List.length_cons] at hlen
  show substF rendered (cs.length + 1) k (c :: cs) = _
  simp only [substF, if_pos ho, hfc]
  congr 1
  exact substF_fuel rendered cs.length _ _ _ r (by omega) (by omega) (by omega)

theorem subst_cons_nomatch (rendered : Nat → Option (List Char)) {c : Char}
    {cs : List Char} (ho : openDelim.isPrefixOf (c :: cs))
    (hfc : findClose ((c :: cs).drop 11) = none) (k : Nat) :
    subst rendered k (c :: cs) = c :: cs := by
  show substF rendered (cs.length + 1) k (c :: cs) = _
  simp only [substF, if_pos ho, hfc]

theorem subst_cons_skip (rendered : Nat → Option (List Char)) {c : Char}
    {cs : List Char} (ho : ¬ openDelim.isPrefixOf (c :: cs)) (k : Nat) :
    subst rendered k (c :: cs) = c :: subst rendered k cs := by
  show substF rendered (cs.length + 1) k (c :: cs) = _
  simp only [substF, if_neg ho]
  rfl

theorem substTrace_cons_match {c : Char} {cs p r : List Char}
    (ho : openDelim.isPrefixOf (c :: cs))
    (hfc : findClose ((c :: cs).drop 11) = some (p, r)) (k : Nat) :
    substTrace k (c :: cs) = (k, fullSpan p) :: substTrace (k + 1) r := by
  have hlen := findClose_length hfc
  simp only [List.length_drop, List.length_cons] at hlen
  show substTraceF (cs.length + 1) k (c :: cs) = _
  simp only [substTraceF, if_pos ho, hfc]
  congr 1
  exact substTraceF_fuel cs.length _ _ _ r (by omega) (by omega) (by omega)

theorem substTrace_cons_nomatch {c : Char} {cs : List Char}
    (ho : openDelim.isPrefixOf (c :: cs))
    (hfc : findClose ((c :: cs).drop 11) = none) (k : Nat) :
    substTrace k (c :: cs) = [] := by
  show substTraceF (cs.length + 1) k (c :: cs) = _
  simp only [substTraceF, if_pos ho, hfc]

theorem substTrace_cons_skip {c : Char} {cs : List Char}
    (ho : ¬ openDelim.isPrefixOf (c :: cs)) (k : Nat) :
    substTrace k (c :: cs) = substTrace k cs := by
  show substTraceF (cs.length + 1) k (c :: cs) = _
  simp only [substTraceF, if_neg ho]
  rfl

-- ### Payloads are independent of the reported positions

theorem finditer_map_snd :
    ∀ n (l : List Char) pos pos', l.length ≤ n →
      (finditer pos l).map Prod.snd = (finditer pos' l).map Prod.snd := by
  intro n
  induction n with
  | zero =>
    intro l pos pos' hn
    have : l = [] := List.length_eq_zero.mp (Nat.le_zero.mp hn)
    subst this
    rfl
  | succ n ih =>
    intro l pos pos' hn
    cases l with
    | nil => rfl
    | cons c cs =>
      simp only [List.length_cons] at hn
      by_cases ho : openDelim.isPrefixOf (c :: cs)
      · cases hfc : findClose ((c :: cs).drop 11) with
        | none => rw [finditer_cons_nomatch ho hfc, finditer_cons_nomatch ho hfc]
        | some pr =>
          obtain ⟨p, r⟩ := pr
          have hlen := findClose_length hfc
          simp only [List.length_drop, List.length_cons] at hlen
          rw [finditer_cons_match ho hfc, finditer_cons_match ho hfc]
          simp only [List.map_cons]
          congr 1
          exact ih r _ _ (by omega)
      · rw [finditer_cons_skip ho, finditer_cons_skip ho]
        exact ih cs _ _ (by omega)

theorem payloads_nil : payloads [] = [] := rfl

theorem payloads_cons_match {c : Char} {cs p r : List Char}
    (ho : openDelim.isPrefixOf (c :: cs))
    (hfc : findClose ((c :: cs).drop 11) = some (p, r)) :
    payloads (c :: cs) = p :: payloads r := by
  show (finditer 0 (c :: cs)).map Prod.snd = _
  rw [finditer_cons_match ho hfc]
  simp only [List.map_cons]
  congr 1
  exact finditer_map_snd r.length r _ _ le_rfl

theorem payloads_cons_nomatch {c : Char} {cs : List Char}
    (ho : openDelim.isPrefixOf (c :: cs))
    (hfc : findClose ((c :: cs).drop 11) = none) :
    payloads (c :: cs) = [] := by
  show (finditer 0 (c :: cs)).map Prod.snd = _
  rw [finditer_cons_nomatch ho hfc]
  rfl

theorem payloads_cons_skip {c : Char} {cs : List Char}
    (ho : ¬ openDelim.isPrefixOf (c :: cs)) :
    payloads (c :: cs) = payloads cs := by
  show (finditer 0 (c :: cs)).map Prod.snd = _
  rw [finditer_cons_skip ho]
  exact finditer_map_snd cs.length cs _ _ le_rfl

-- ### Decomposition of the opening delimiter at a match site

theorem open_decomp {c : Char} {cs : List Char}
    (ho : openDelim.isPrefixOf (c :: cs)) :
    c :: cs = openDelim ++ (c :: cs).drop 11 := by
  rw [ List.isPrefixOf_iff_prefix] at ho
  obtain ⟨t, ht⟩ := ho
  have h11 : t = (c :: cs).drop 11 := by
    have h4 := congrArg (List.drop 11) ht
    rw [List.drop_left' (by decide)] at h4
    exact h4
  rw [← h11]
  exact ht.symm

-- ### Interleaving of untouched text with per-block segments

/-- Interleaving of the literal (non-block) text pieces with the per-block
segments: `alternate [l0, l1, ..., ln] [s0, ..., s(n-1)]` is
`l0 ++ s0 ++ l1 ++ s1 ++ ... ++ ln`. -/
def alternate : List (List Char) → List (List Char) → List Char
  | [], _ => []
  | t :: _, [] => t
  | t :: ts, s :: ss => t ++ s ++ alternate ts ss

/-- The segment the callback produces for each block in order: the image
reference to the recorded artifact path when block `k` has one, and the
block's original full span otherwise. -/
def outSegs (rendered : Nat → Option (List Char)) : Nat → List (List Char) → List (List Char)
  | _, [] => []
  | k, p :: ps =>
    (match rendered k with
      | some path => imageRef k path
      | none => fullSpan p) :: outSegs rendered (k + 1) ps

theorem subst_decomp :
    ∀ n (l : List Char), l.length ≤ n →
      ∃ lits : List (List Char), lits.length = (payloads l).length + 1 ∧
        ∀ rendered k, subst rendered k l = alternate lits (outSegs rendered k (payloads l)) := by
  intro n
  induction n with
  | zero =>
    intro l hn
    have : l = [] := List.length_eq_zero.mp (Nat.le_zero.mp hn)
    subst this
    exact ⟨[[]], rfl, fun rendered k => rfl⟩
  | succ n ih =>
    intro l hn
    cases l with
    | nil => exact ⟨[[]], rfl, fun rendered k => rfl⟩
    | cons c cs =>
      simp only [List.length_cons] at hn
      by_cases ho : openDelim.isPrefixOf (c :: cs)
      · cases hfc : findClose ((c :: cs).drop 11) with
        | none =>
          refine ⟨[c :: cs], by rw [payloads_cons_nomatch ho hfc]; rfl, ?_⟩
          intro rendered k
          rw [subst_cons_nomatch rendered ho hfc, payloads_cons_nomatch ho hfc]
          rfl
        | some pr =>
          obtain ⟨p, r⟩ := pr
          have hlen := findClose_length hfc
          simp only [List.length_drop, List.length_cons] at hlen
          obtain ⟨lits, hl, hs⟩ := ih r (by omega)
          refine ⟨[] :: lits, ?_, ?_⟩
          · rw [payloads_cons_match ho hfc]
            simpa using hl
          · intro rendered k
            rw [subst_cons_match rendered ho hfc, payloads_cons_match ho hfc]
            simp only [outSegs, alternate]
            rw [hs rendered (k + 1)]
            simp
      · obtain ⟨lits, hl, hs⟩ := ih cs (by omega)
        cases lits with
        | nil => simp at hl
        | cons t ts =>
          refine ⟨(c :: t) :: ts, ?_, ?_⟩
          · rw [payloads_cons_skip ho]
            simpa using hl
          · intro rendered k
            rw [subst_cons_skip rendered ho, payloads_cons_skip ho, hs rendered k]
            cases outSegs rendered k (payloads cs) with
            | nil => simp [alternate]
            | cons s ss => simp [alternate]

-- ### Substitution with an empty outcome mapping is the identity

theorem subst_none_id :
    ∀ n (l : List Char), l.length ≤ n → ∀ k, subst (fun _ => none) k l = l := by
  intro n
  induction n with
  | zero =>
    intro l hn k
    have : l = [] := List.length_eq_zero.mp (Nat.le_zero.mp hn)
    subst this
    rfl
  | succ n ih =>
    intro l hn k
    cases l with
    | nil => rfl
    | cons c cs =>
      simp only [List.length_cons] at hn
      by_cases ho : openDelim.isPrefixOf (c :: cs)
      · cases hfc : findClose ((c :: cs).drop 11) with
        | none => exact subst_cons_nomatch _ ho hfc k
        | some pr =>
          obtain ⟨p, r⟩ := pr
          have hlen := findClose_length hfc
          simp only [List.length_drop, List.length_cons] at hlen
          rw [subst_cons_match _ ho hfc, ih r (by omega) (k + 1)]
          have hd := open_decomp ho
          rw [findClose_sound _ _ _ hfc] at hd
          rw [hd]
          simp [fullSpan]
      · rw [subst_cons_skip _ ho, ih cs (by omega) k]

-- ### Substitution only consults the counters of the blocks present

theorem subst_agree :
    ∀ n (l : List Char), l.length ≤ n → ∀ r₁ r₂ k,
      (∀ i, k ≤ i → i < k + (payloads l).length → r₁ i = r₂ i) →
      subst r₁ k l = subst r₂ k l := by
  intro n
  induction n with
  | zero =>
    intro l hn r₁ r₂ k _
    have : l = [] := List.length_eq_zero.mp (Nat.le_zero.mp hn)
    subst this
    rfl
  | succ n ih =>
    intro l hn r₁ r₂ k hag
    cases l with
    | nil => rfl
    | cons c cs =>
      simp only [List.length_cons] at hn
      by_cases ho : openDelim.isPrefixOf (c :: cs)
      · cases hfc : findClose ((c :: cs).drop 11) with
        | none => rw [subst_cons_nomatch _ ho hfc, subst_cons_nomatch _ ho hfc]
        | some pr =>
          obtain ⟨p, r⟩ := pr
          have hlen := findClose_length hfc
          simp only [List.length_drop, List.length_cons] at hlen
          rw [payloads_cons_match ho hfc] at hag
          simp only [List.length_cons] at hag
          rw [subst_cons_match _ ho hfc, subst_cons_match _ ho hfc]
          have hk : r₁ k = r₂ k := hag k le_rfl (by omega)
          rw [hk, ih r (by omega) r₁ r₂ (k + 1) (fun i h1 h2 => hag i (by omega) (by omega))]
      · rw [payloads_cons_skip ho] at hag
        rw [subst_cons_skip _ ho, subst_cons_skip _ ho,
          ih cs (by omega) r₁ r₂ k hag]

-- ### Evaluating the per-block segments

theorem outSegs_none :
    ∀ (ps : List (List Char)) k, outSegs (fun _ => none) k ps = ps.map fullSpan := by
  intro ps
  induction ps with
  | nil => intro k; rfl
  | cons p ps ih =>
    intro k
    simp only [outSegs, List.map_cons]
    rw [ih (k + 1)]

theorem outSegs_all_some :
    ∀ (ps : List (List Char)) (rendered : Nat → Option (List Char)) k,
      (∀ i, k ≤ i → i < k + ps.length → rendered i = some (pngPath i)) →
      outSegs rendered k ps =
        (List.range ps.length).map (fun q => imageRef (k + q) (pngPath (k + q))) := by
  intro ps
  induction ps with
  | nil => intro rendered k _; rfl
  | cons p ps ih =>
    intro rendered k hall
    have hk : rendered k = some (pngPath k) := hall k le_rfl (by simp)
    simp only [outSegs, hk]
    rw [ih rendered (k + 1) (fun i h1 h2 => hall i (by omega) (by simp at h2 ⊢; omega))]
    simp only [List.length_cons, List.range_succ_eq_map, List.map_cons, List.map_map]
    congr 1
    apply List.map_congr_left
    intro q _
    have hq : k + 1 + q = k + (q + 1) := by omega
    rw [hq]
    rfl

-- ### The k-th replaced segment sits inside the interleaving

theorem alternate_infix :
    ∀ (ss ts : List (List Char)) (s : List Char), ts.length = ss.length + 1 →
      s ∈ ss → s <:+: alternate ts ss := by
  intro ss
  induction ss with
  | nil => intro ts s _ hs; exact absurd hs (by simp)
  | cons s' ss' ih =>
    intro ts s hl hs
    cases ts with
    | nil => simp at hl
    | cons t ts' =>
      simp only [List.length_cons] at hl
      rcases List.mem_cons.mp hs with rfl | hs'
      · exact ⟨t, alternate ts' ss', by simp [alternate]⟩
      · obtain ⟨u, v, huv⟩ := ih ts' s (by omega) hs'
        refine ⟨t ++ s' ++ u, v, ?_⟩
        simp [alternate, huv]

theorem outSegs_mem_fullSpan :
    ∀ (ps : List (List Char)) (rendered : Nat → Option (List Char)) k K
      (hK : K < ps.length), rendered (k + K) = none →
      fullSpan (ps.get ⟨K, hK⟩) ∈ outSegs rendered k ps := by
  intro ps
  induction ps with
  | nil => intro rendered k K hK _; simp at hK
  | cons p ps ih =>
    intro rendered k K hK hnone
    cases K with
    | zero =>
      have hk : rendered k = none := by simpa using hnone
      simp [outSegs, hk]
    | succ K' =>
      have hK' : K' < ps.length := by simpa using hK
      have hnone' : rendered (k + 1 + K') = none := by
        have : k + 1 + K' = k + (K' + 1) := by omega
        rw [this]; exact hnone
      have := ih rendered (k + 1) K' hK' hnone'
      simp only [outSegs]
      exact List.mem_cons_of_mem _ this

-- ### Soundness of the extraction pass: every reported match is real

theorem fullSpan_length (p : List Char) : (fullSpan p).length = p.length + 14 := by
  have h1 : openDelim.length = 11 := by decide
  have h2 : closeDelim.length = 3 := by decide
  simp [fullSpan, List.length_append, h1, h2]
  omega

theorem finditer_sound :
    ∀ n (l : List Char), l.length ≤ n → ∀ pos s p, (s, p) ∈ finditer pos l →
      ∃ d r', s = pos + d ∧ l.drop d = fullSpan p ++ r' ∧
        ∀ q, q < p.length → ¬ closeDelim <+: l.drop (d + 11 + q) := by
  intro n
  induction n with
  | zero =>
    intro l hn pos s p h
    have : l = [] := List.length_eq_zero.mp (Nat.le_zero.mp hn)
    subst this
    exact absurd h (by simp [finditer, finditerF])
  | succ n ih =>
    intro l hn pos s p h
    cases l with
    | nil => exact absurd h (by simp [finditer, finditerF])
    | cons c cs =>
      simp only [List.length_cons] at hn
      by_cases ho : openDelim.isPrefixOf (c :: cs)
      · cases hfc : findClose ((c :: cs).drop 11) with
        | none =>
          rw [finditer_cons_nomatch ho hfc] at h
          exact absurd h (by simp)
        | some pr =>
          obtain ⟨p0, r⟩ := pr
          have hlen := findClose_length hfc
          simp only [List.length_drop, List.length_cons] at hlen
          have hdec : c :: cs = fullSpan p0 ++ r := by
            have hd := open_decomp ho
            rw [findClose_sound _ _ _ hfc] at hd
            rw [hd]
            simp [fullSpan]
          have hdropfull : ∀ m, (c :: cs).drop (p0.length + 14 + m) = r.drop m := by
            intro m
            have hm : p0.length + 14 + m = (fullSpan p0).length + m := by
              rw [fullSpan_length]
            rw [hm, hdec]
            exact List.drop_append m
          rw [finditer_cons_match ho hfc] at h
          rcases List.mem_cons.mp h with heq | htail
          · simp only [Prod.mk.injEq] at heq
            obtain ⟨rfl, rfl⟩ := heq
            refine ⟨0, r, by omega, by simpa using hdec, ?_⟩
            intro q hq
            have hlz := findClose_lazy _ _ _ hfc q hq
            rw [List.drop_drop] at hlz
            have hidx : 0 + 11 + q = 11 + q := by omega
            rw [hidx]
            exact hlz
          · obtain ⟨d', r'', hs, hdropEq, hlazy⟩ := ih r (by omega) _ s p htail
            refine ⟨p0.length + 14 + d', r'', by omega, ?_, ?_⟩
            · rw [hdropfull d', hdropEq]
            · intro q hq
              have hidx : p0.length + 14 + d' + 11 + q = p0.length + 14 + (d' + 11 + q) := by
                omega
              rw [hidx, hdropfull (d' + 11 + q)]
              exact hlazy q hq
      · rw [finditer_cons_skip ho] at h
        obtain ⟨d', r'', hs, hdropEq, hlazy⟩ := ih cs (by omega) _ s p h
        refine ⟨d' + 1, r'', by omega, ?_, ?_⟩
        · rw [List.drop_succ_cons, hdropEq]
        · intro q hq
          have hidx : d' + 1 + 11 + q = (d' + 11 + q) + 1 := by omega
          rw [hidx, List.drop_succ_cons]
          exact hlazy q hq

theorem finditer_mem_sound {l : List Char} {pos s : Nat} {p : List Char}
    (h : (s, p) ∈ finditer pos l) :
    ∃ d r', s = pos + d ∧ l.drop d = fullSpan p ++ r' ∧
      ∀ q, q < p.length → ¬ closeDelim <+: l.drop (d + 11 + q) :=
  finditer_sound l.length l le_rfl pos s p h

theorem finditer_pos_le {l : List Char} {pos s : Nat} {p : List Char}
    (h : (s, p) ∈ finditer pos l) : pos ≤ s := by
  obtain ⟨d, r', hs, _, _⟩ := finditer_mem_sound h
  omega

theorem finditer_pairwise :
    ∀ n (l : List Char), l.length ≤ n → ∀ pos,
      List.Pairwise (fun a b : Nat × List Char => a.1 + a.2.length + 14 ≤ b.1)
        (finditer pos l) := by
  intro n
  induction n with
  | zero =>
    intro l hn pos
    have : l = [] := List.length_eq_zero.mp (Nat.le_zero.mp hn)
    subst this
    simp [finditer, finditerF]
  | succ n ih =>
    intro l hn pos
    cases l with
    | nil => simp [finditer, finditerF]
    | cons c cs =>
      simp only [List.length_cons] at hn
      by_cases ho : openDelim.isPrefixOf (c :: cs)
      · cases hfc : findClose ((c :: cs).drop 11) with
        | none => rw [finditer_cons_nomatch ho hfc]; exact List.Pairwise.nil
        | some pr =>
          obtain ⟨p, r⟩ := pr
          have hlen := findClose_length hfc
          simp only [List.length_drop, List.length_cons] at hlen
          rw [finditer_cons_match ho hfc]
          refine List.Pairwise.cons ?_ (ih r (by omega) _)
          intro b hb
          obtain ⟨s', p'⟩ := b
          have hle := finditer_pos_le hb
          simp only
          omega
      · rw [finditer_cons_skip ho]
        exact ih cs (by omega) _

-- ### A document with no match is left untouched by the substitution pass

theorem finditer_zero_of_pos {cs : List Char} {pos : Nat}
    (h : finditer pos cs = []) : finditer 0 cs = [] := by
  have hm := finditer_map_snd cs.length cs pos 0 le_rfl
  rw [h] at hm
  cases hfin : finditer 0 cs with
  | nil => rfl
  | cons a as => rw [hfin] at hm; simp at hm

theorem subst_of_no_match :
    ∀ n (l : List Char), l.length ≤ n → finditer 0 l = [] →
      ∀ rendered k, subst rendered k l = l := by
  intro n
  induction n with
  | zero =>
    intro l hn _ rendered k
    have : l = [] := List.length_eq_zero.mp (Nat.le_zero.mp hn)
    subst this
    rfl
  | succ n ih =>
    intro l hn hf rendered k
    cases l with
    | nil => rfl
    | cons c cs =>
      simp only [List.length_cons] at hn
      by_cases ho : openDelim.isPrefixOf (c :: cs)
      · cases hfc : findClose ((c :: cs).drop 11) with
        | none => exact subst_cons_nomatch rendered ho hfc k
        | some pr =>
          obtain ⟨p, r⟩ := pr
          rw [finditer_cons_match ho hfc] at hf
          exact absurd hf (by simp)
      · rw [finditer_cons_skip ho] at hf
        rw [subst_cons_skip rendered ho,
          ih cs (by omega) (finditer_zero_of_pos hf) rendered k]

-- ### The substitution pass re-encounters exactly the extracted matches

theorem substTrace_eq_enumFrom :
    ∀ n (l : List Char), l.length ≤ n → ∀ k,
      substTrace k l = List.enumFrom k ((payloads l).map fullSpan) := by
  intro n
  induction n with
  | zero =>
    intro l hn k
    have : l = [] := List.length_eq_zero.mp (Nat.le_zero.mp hn)
    subst this
    rfl
  | succ n ih =>
    intro l hn k
    cases l with
    | nil => rfl
    | cons c cs =>
      simp only [List.length_cons] at hn
      by_cases ho : openDelim.isPrefixOf (c :: cs)
      · cases hfc : findClose ((c :: cs).drop 11) with
        | none =>
          rw [substTrace_cons_nomatch ho hfc, payloads_cons_nomatch ho hfc]
          rfl
        | some pr =>
          obtain ⟨p, r⟩ := pr
          have hlen := findClose_length hfc
          simp only [List.length_drop, List.length_cons] at hlen
          rw [substTrace_cons_match ho hfc, payloads_cons_match ho hfc,
            ih r (by omega) (k + 1)]
          rfl
      · rw [substTrace_cons_skip ho, payloads_cons_skip ho]
        exact ih cs (by omega) k

-- ### Character-level facts: image references contain no backtick

theorem digitChar_ne_backtick (d : Nat) : Nat.digitChar d ≠ Char.ofNat 96 := by
  by_cases hlt : d < 16
  · interval_cases d <;> decide
  · unfold Nat.digitChar
    rw [if_neg (by omega : ¬ d = 0), if_neg (by omega : ¬ d = 1),
      if_neg (by omega : ¬ d = 2), if_neg (by omega : ¬ d = 3),
      if_neg (by omega : ¬ d = 4), if_neg (by omega : ¬ d = 5),
      if_neg (by omega : ¬ d = 6), if_neg (by omega : ¬ d = 7),
      if_neg (by omega : ¬ d = 8), if_neg (by omega : ¬ d = 9),
      if_neg (by omega : ¬ d = 10), if_neg (by omega : ¬ d = 11),
      if_neg (by omega : ¬ d = 12), if_neg (by omega : ¬ d = 13),
      if_neg (by omega : ¬ d = 14), if_neg (by omega : ¬ d = 15)]
    decide

theorem toDigitsCore_ne_backtick :
    ∀ fuel n (acc : List Char), (∀ c ∈ acc, c ≠ Char.ofNat 96) →
      ∀ c ∈ Nat.toDigitsCore 10 fuel n acc, c ≠ Char.ofNat 96 := by
  intro fuel
  induction fuel with
  | zero => intro n acc hacc c hc; exact hacc c hc
  | succ fuel ih =>
    intro n acc hacc c hc
    simp only [Nat.toDigitsCore] at hc
    by_cases h0 : n / 10 = 0
    · rw [if_pos h0] at hc
      rcases List.mem_cons.mp hc with rfl | hmem
      · exact digitChar_ne_backtick _
      · exact hacc c hmem
    · rw [if_neg h0] at hc
      refine ih (n / 10) _ ?_ c hc
      intro c' hc'
      rcases List.mem_cons.mp hc' with rfl | hm
      · exact digitChar_ne_backtick _
      · exact hacc c' hm

theorem repr_ne_backtick (i : Nat) : ∀ c ∈ (Nat.repr i).toList, c ≠ Char.ofNat 96 := by
  intro c hc
  have hr : (Nat.repr i).toList = Nat.toDigits 10 i := rfl
  rw [hr] at hc
  exact toDigitsCore_ne_backtick (i + 1) i [] (by simp) c hc

theorem imageRef_png_ne_backtick (i : Nat) :
    ∀ c ∈ imageRef i (pngPath i), c ≠ Char.ofNat 96 := by
  intro c hc
  simp only [imageRef, pngPath, List.append_assoc, List.mem_append] at hc
  rcases hc with hc | hc | hc | hc | hc | hc
  · exact (by decide : ∀ c ∈ "![Diagram ".toList, c ≠ Char.ofNat 96) c hc
  · exact repr_ne_backtick i c hc
  · exact (by decide : ∀ c ∈ "](".toList, c ≠ Char.ofNat 96) c hc
  · exact (by decide : ∀ c ∈ "/tmp/mermaid_diagrams/d".toList, c ≠ Char.ofNat 96) c hc
  · exact repr_ne_backtick i c hc
  · rcases hc with hc | hc
    · exact (by decide : ∀ c ∈ ".png".toList, c ≠ Char.ofNat 96) c hc
    · exact (by decide : ∀ c ∈ ")".toList, c ≠ Char.ofNat 96) c hc

-- ### No remaining pattern match after a fully successful substitution

/-- No substring of `out` matches the diagram-block pattern: wherever the
opening delimiter occurs, no closing delimiter occurs at or after the end of
that opening delimiter. -/
def NoSpan (out : List Char) : Prop :=
  ∀ i j, openDelim <+: out.drop i → ¬ closeDelim <+: out.drop (i + 11 + j)

theorem prefix_long_head {a b z : List Char} (h : a <+: b ++ z)
    (hl : b.length ≤ a.length) : a.take b.length = b := by
  obtain ⟨t, ht⟩ := h
  have h2 := congrArg (List.take b.length) ht
  rw [List.take_left, List.take_append_of_le_length hl] at h2
  exact h2

theorem prefix_of_prefix_append {pat a b : List Char} (h : pat <+: a ++ b)
    (hl : pat.length ≤ a.length) : pat <+: a := by
  have hp : pat = (a ++ b).take pat.length := by
    rw [← List.prefix_iff_eq_take]
    exact h
  rw [List.take_append_of_le_length hl] at hp
  rw [hp]
  exact List.take_prefix _ _

theorem prefix_append_split {pat a b : List Char} (h : pat <+: a ++ b)
    (hl : a.length ≤ pat.length) :
    ∃ pat₂, pat = a ++ pat₂ ∧ pat₂ <+: b := by
  have ha : pat.take a.length = a := prefix_long_head h hl
  have hsplit : pat = a ++ pat.drop a.length := by
    conv_lhs => rw [← List.take_append_drop a.length pat]
    rw [ha]
  refine ⟨pat.drop a.length, hsplit, ?_⟩
  obtain ⟨t, ht⟩ := h
  rw [hsplit, List.append_assoc] at ht
  exact ⟨t, List.append_cancel_left ht⟩

theorem closeDelim_prefix_of_openDelim {x : List Char} (h : openDelim <+: x) :
    closeDelim <+: x :=
  List.IsPrefix.trans (by decide : closeDelim <+: openDelim) h

theorem NoSpan_append {a b : List Char} (ha : ∀ c ∈ a, c ≠ Char.ofNat 96)
    (hb : NoSpan b) : NoSpan (a ++ b) := by
  intro i j hopen hclose
  by_cases hi : i < a.length
  · rw [List.drop_append_eq_append_drop] at hopen
    cases hd : a.drop i with
    | nil => rw [hd] at hopen; simp at hd; omega
    | cons c' rest =>
      rw [hd] at hopen
      obtain ⟨t, ht⟩ := hopen
      have hopen_eq : openDelim = Char.ofNat 96 :: "``mermaid\n".toList := by decide
      rw [hopen_eq] at ht
      simp only [List.cons_append] at ht
      have hc' : c' = Char.ofNat 96 := (List.cons.injEq .. ▸ ht).1.symm
      have hmem : c' ∈ a := List.mem_of_mem_drop (hd ▸ List.mem_cons_self c' rest)
      exact ha c' hmem hc'
  · have hi' : a.length ≤ i := by omega
    rw [List.drop_append_eq_append_drop, List.drop_eq_nil_of_le hi',
      List.nil_append] at hopen
    rw [List.drop_append_eq_append_drop,
      List.drop_eq_nil_of_le (by omega : a.length ≤ i + 11 + j),
      List.nil_append] at hclose
    have hidx : i + 11 + j - a.length = (i - a.length) + 11 + j := by omega
    rw [hidx] at hclose
    exact hb (i - a.length) j hopen hclose

theorem NoSpan_tail_open {c : Char} {cs : List Char}
    (ho : openDelim.isPrefixOf (c :: cs))
    (hfc : findClose ((c :: cs).drop 11) = none) : NoSpan (c :: cs) := by
  intro i j hopen hclose
  have hdec := open_decomp ho
  rcases Nat.lt_or_ge i 11 with hi | hi
  · rcases Nat.eq_zero_or_pos i with rfl | hipos
    · have hcl : closeDelim <+: ((c :: cs).drop 11).drop (j) := by
        rw [List.drop_drop]
        have hidx : 11 + j = 0 + 11 + j := by omega
        rw [← hidx] at hclose
        exact hclose
      exact findClose_none hfc j hcl
    · have hx : (c :: cs).drop i = openDelim.drop i ++ (c :: cs).drop 11 := by
        conv_lhs => rw [hdec]
        rw [List.drop_append_eq_append_drop]
        have h11 : openDelim.length = 11 := by decide
        rw [h11]
        have hz : i - 11 = 0 := by omega
        rw [hz, List.drop_zero]
      rw [hx] at hopen
      have htake := prefix_long_head hopen (by
        have h11 : openDelim.length = 11 := by decide
        simp only [List.length_drop, h11]
        omega)
      have h11 : openDelim.length = 11 := by decide
      rw [List.length_drop, h11] at htake
      interval_cases i <;> revert htake <;> decide
  · have hcl : closeDelim <+: ((c :: cs).drop 11).drop (i - 11) := by
      rw [List.drop_drop]
      have hidx : 11 + (i - 11) = i := by omega
      rw [hidx]
      exact closeDelim_prefix_of_openDelim hopen
    exact findClose_none hfc (i - 11) hcl

theorem NoSpan_nil : NoSpan [] := by
  intro i j hopen
  rw [List.drop_nil, List.prefix_nil] at hopen
  exact absurd hopen (by decide)

theorem prefix_subst_transfer :
    ∀ n (l : List Char), l.length ≤ n → ∀ (pat : List Char) rendered k,
      Char.ofNat 33 ∉ pat → pat <+: subst rendered k l → pat <+: l := by
  intro n
  induction n with
  | zero =>
    intro l hn pat rendered k _ hpre
    have : l = [] := List.length_eq_zero.mp (Nat.le_zero.mp hn)
    subst this
    exact hpre
  | succ n ih =>
    intro l hn pat rendered k hbang hpre
    cases l with
    | nil => exact hpre
    | cons c cs =>
      simp only [List.length_cons] at hn
      by_cases ho : openDelim.isPrefixOf (c :: cs)
      · cases hfc : findClose ((c :: cs).drop 11) with
        | none => rwa [subst_cons_nomatch rendered ho hfc] at hpre
        | some pr =>
          obtain ⟨p, r⟩ := pr
          have hlen := findClose_length hfc
          simp only [List.length_drop, List.length_cons] at hlen
          have hdec : c :: cs = fullSpan p ++ r := by
            have hd := open_decomp ho
            rw [findClose_sound _ _ _ hfc] at hd
            rw [hd]
            simp [fullSpan]
          rw [subst_cons_match rendered ho hfc] at hpre
          cases hrk : rendered k with
          | some path =>
            rw [hrk] at hpre
            dsimp only at hpre
            have himg : ∃ rest, imageRef k path = Char.ofNat 33 :: rest := ⟨_, rfl⟩
            obtain ⟨rest, hres⟩ := himg
            rw [hres] at hpre
            cases pat with
            | nil => exact List.nil_prefix
            | cons q pat' =>
              rw [List.cons_append, List.cons_prefix_cons] at hpre
              exact absurd (hpre.1 ▸ List.mem_cons_self q pat') hbang
          | none =>
            rw [hrk] at hpre
            dsimp only at hpre
            by_cases hpl : pat.length ≤ (fullSpan p).length
            · have hpa : pat <+: fullSpan p := prefix_of_prefix_append hpre hpl
              rw [hdec]
              exact hpa.trans (List.prefix_append _ _)
            · obtain ⟨pat₂, hpat, hp₂⟩ := prefix_append_split hpre (by omega)
              have hbang₂ : Char.ofNat 33 ∉ pat₂ := by
                intro hm
                exact hbang (hpat ▸ List.mem_append_right _ hm)
              have hr := ih r (by omega) pat₂ rendered (k + 1) hbang₂ hp₂
              rw [hdec, hpat]
              exact (List.prefix_append_right_inj (fullSpan p)).mpr hr
      · rw [subst_cons_skip rendered ho] at hpre
        cases pat with
        | nil => exact List.nil_prefix
        | cons q pat' =>
          rw [List.cons_prefix_cons] at hpre
          have hq := hpre.1
          have hp' := ih cs (by omega) pat' rendered k
            (fun hm => hbang (List.mem_cons_of_mem q hm)) hpre.2
          rw [List.cons_prefix_cons]
          exact ⟨hq, hp'⟩

theorem subst_no_span :
    ∀ n (l : List Char), l.length ≤ n → ∀ k,
      NoSpan (subst (fun i => some (pngPath i)) k l) := by
  intro n
  induction n with
  | zero =>
    intro l hn k
    have : l = [] := List.length_eq_zero.mp (Nat.le_zero.mp hn)
    subst this
    exact NoSpan_nil
  | succ n ih =>
    intro l hn k
    cases l with
    | nil => exact NoSpan_nil
    | cons c cs =>
      simp only [List.length_cons] at hn
      by_cases ho : openDelim.isPrefixOf (c :: cs)
      · cases hfc : findClose ((c :: cs).drop 11) with
        | none =>
          rw [subst_cons_nomatch _ ho hfc]
          exact NoSpan_tail_open ho hfc
        | some pr =>
          obtain ⟨p, r⟩ := pr
          have hlen := findClose_length hfc
          simp only [List.length_drop, List.length_cons] at hlen
          rw [subst_cons_match _ ho hfc]
          exact NoSpan_append (imageRef_png_ne_backtick k) (ih r (by omega) (k + 1))
      · rw [subst_cons_skip _ ho]
        intro i j hopen hclose
        cases i with
        | zero =>
          rw [List.drop_zero, ← subst_cons_skip _ ho] at hopen
          have htr := prefix_subst_transfer (cs.length + 1) (c :: cs) (by simp)
            openDelim _ k (by decide) hopen
          rw [← List.isPrefixOf_iff_prefix] at htr
          exact ho htr
        | succ i =>
          have hd1 : (c :: subst (fun i => some (pngPath i)) k cs).drop (i + 1) =
              (subst (fun i => some (pngPath i)) k cs).drop i := List.drop_succ_cons ..
          rw [hd1] at hopen
          have hidx : i + 1 + 11 + j = (i + 11 + j) + 1 := by omega
          rw [hidx, List.drop_succ_cons] at hclose
          exact ih cs (by omega) k i j hopen hclose

theorem NoSpan_no_decomp {out : List Char} (h : NoSpan out) :
    ¬ ∃ u x v, out = u ++ (openDelim ++ x ++ closeDelim) ++ v := by
  rintro ⟨u, x, v, rfl⟩
  refine h u.length x.length ?_ ?_
  · have hB : u ++ (openDelim ++ x ++ closeDelim) ++ v =
        u ++ (openDelim ++ (x ++ (closeDelim ++ v))) := by
      simp [List.append_assoc]
    rw [hB, List.drop_left]
    exact List.prefix_append _ _
  · have hA : u ++ (openDelim ++ x ++ closeDelim) ++ v =
        (u ++ openDelim ++ x) ++ (closeDelim ++ v) := by
      simp [List.append_assoc]
    rw [hA, List.drop_left' (by
      simp only [List.length_append]
      have h11 : openDelim.length = 11 := by decide
      omega)]
    exact List.prefix_append _ _

-- ### Unfolding equations phrased for a nonempty text

theorem finditer_nomatch {l : List Char} (hne : l ≠ [])
    (ho : openDelim.isPrefixOf l) (hfc : findClose (l.drop 11) = none) (pos : Nat) :
    finditer pos l = [] := by
  cases l with
  | nil => exact absurd rfl hne
  | cons c cs => exact finditer_cons_nomatch ho hfc pos

theorem subst_nomatch (rendered : Nat → Option (List Char)) {l : List Char}
    (hne : l ≠ []) (ho : openDelim.isPrefixOf l)
    (hfc : findClose (l.drop 11) = none) (k : Nat) :
    subst rendered k l = l := by
  cases l with
  | nil => exact absurd rfl hne
  | cons c cs => exact subst_cons_nomatch rendered ho hfc k

theorem findClose_eq_none_of {w : List Char}
    (hw : ∀ j, ¬ closeDelim <+: w.drop j) : findClose w = none := by
  cases hfc : findClose w with
  | none => rfl
  | some pr =>
    obtain ⟨p, r⟩ := pr
    have hs := findClose_sound w p r hfc
    have hcl : closeDelim <+: w.drop p.length := by
      have hdrop : w.drop p.length = closeDelim ++ r := by
        rw [hs, List.append_assoc]
        exact List.drop_left p (closeDelim ++ r)
      rw [hdrop]
      exact List.prefix_append _ _
    exact absurd hcl (hw p.length)

-- ### Model of the per-block rendering loop and of the script tail

/-- Environment of a single block's rendering attempt: whether writing the
scratch `.mmd` file raises, whether the `subprocess.run` invocation raises
(timeout or any other exception), the renderer's exit status when it ran, and
whether the artifact file exists on disk afterwards. -/
structure BlockEnv where
  writeRaises : Bool
  runRaises : Bool
  returncode : Int
  artifactExists : Bool

/-- Whether the script records a success for a block processed in environment
`e`: inside the `try`, `subprocess.run` either raises (caught: nothing
recorded) or completes, after which the artifact's existence on disk alone
decides.  The renderer's exit status `e.returncode` is never consulted. -/
def recordsSuccess (e : BlockEnv) : Bool := !e.runRaises && e.artifactExists

/-- The rendering loop over blocks `i, i + 1, ..., i + m - 1`: each iteration
first writes the block's payload to a fresh scratch file (outside the `try`
block, so an exception there propagates and aborts the whole run, modelled by
`none`), then attempts the render inside the `try` and records the outcome. -/
def renderLoop (env : Nat → BlockEnv) : Nat → Nat → Option (List Bool)
  | _, 0 => some []
  | i, m + 1 =>
    if (env i).writeRaises then none
    else (renderLoop env (i + 1) m).map (fun rest => recordsSuccess (env i) :: rest)

/-- The tail of the script: after the substitution, the document converter is
invoked once; on exit status 0 the success message is printed and the process
exits 0, otherwise the failure diagnostics are printed and the script calls
`sys.exit(1)`.  The result is the pair (process exit code, success message
printed).  The per-block render outcomes are passed in to express that they do
not influence the result. -/
def scriptExit (rendered : Nat → Option (List Char)) (converterReturncode : Int) :
    Nat × Bool :=
  if converterReturncode = 0 then (0, true) else (1, false)

-- ### Preservation of a trailing unterminated opening delimiter

theorem trailing_base {w : List Char}
    (hw : ∀ j, ¬ closeDelim <+: w.drop j) :
    (∀ pos, finditer pos (openDelim ++ w) = []) ∧
      (∀ rendered k, subst rendered k (openDelim ++ w) = openDelim ++ w) := by
  have hne : openDelim ++ w ≠ [] := by
    intro h
    rw [List.append_eq_nil] at h
    exact absurd h.1 (by decide)
  have ho : openDelim.isPrefixOf (openDelim ++ w) := by
    rw [ List.isPrefixOf_iff_prefix]
    exact List.prefix_append _ _
  have hfc : findClose ((openDelim ++ w).drop 11) = none := by
    rw [List.drop_left' (by decide)]
    exact findClose_eq_none_of hw
  exact ⟨fun pos => finditer_nomatch hne ho hfc pos,
    fun rendered k => subst_nomatch rendered hne ho hfc k⟩

theorem trailing_preserved :
    ∀ n (u w : List Char), u.length ≤ n →
      (∀ j, ¬ closeDelim <+: w.drop j) →
      (∀ h, h < u.length → openDelim <+: (u ++ (openDelim ++ w)).drop h →
        ∃ j, h + 11 ≤ j ∧ j + 3 ≤ u.length ∧
          closeDelim <+: (u ++ (openDelim ++ w)).drop j) →
      (∀ pos s p, (s, p) ∈ finditer pos (u ++ (openDelim ++ w)) →
        ∃ d, s = pos + d ∧ d + p.length + 14 ≤ u.length) ∧
      (∀ rendered k, ∃ pre,
        subst rendered k (u ++ (openDelim ++ w)) = pre ++ (openDelim ++ w)) := by
  intro n
  induction n with
  | zero =>
    intro u w hn hw _
    have hu0 : u = [] := List.length_eq_zero.mp (Nat.le_zero.mp hn)
    subst hu0
    obtain ⟨hfin, hsub⟩ := trailing_base hw
    constructor
    · intro pos s p hmem
      rw [List.nil_append, hfin pos] at hmem
      exact absurd hmem (by simp)
    · intro rendered k
      rw [List.nil_append, hsub rendered k]
      exact ⟨[], by simp⟩
  | succ n ih =>
    intro u w hn hw hu
    cases u with
    | nil =>
      obtain ⟨hfin, hsub⟩ := trailing_base hw
      constructor
      · intro pos s p hmem
        rw [List.nil_append, hfin pos] at hmem
        exact absurd hmem (by simp)
      · intro rendered k
        rw [List.nil_append, hsub rendered k]
        exact ⟨[], by simp⟩
    | cons c u₂ =>
      simp only [List.length_cons] at hn
      rw [List.cons_append] at hu ⊢
      by_cases ho : openDelim.isPrefixOf (c :: (u₂ ++ (openDelim ++ w)))
      · obtain ⟨j, hj11, hj3, hjcl⟩ := hu 0 (by simp) (by
          rw [List.drop_zero, ← List.isPrefixOf_iff_prefix]
          exact ho)
        simp only [List.length_cons] at hj3
        have hjcl' : closeDelim <+:
            ((c :: (u₂ ++ (openDelim ++ w))).drop 11).drop (j - 11) := by
          rw [List.drop_drop]
          have hidx : 11 + (j - 11) = j := by omega
          rw [hidx]
          exact hjcl
        obtain ⟨p, r, hfc, hple⟩ := findClose_le _ _ hjcl'
        have hlen := findClose_length hfc
        simp only [List.length_drop, List.length_cons] at hlen
        have hdec : c :: (u₂ ++ (openDelim ++ w)) = fullSpan p ++ r := by
          have hd := open_decomp ho
          rw [findClose_sound _ _ _ hfc] at hd
          rw [hd]
          simp [fullSpan]
        have hpb : p.length + 14 ≤ u₂.length + 1 := by omega
        have hrdoc : (c :: (u₂ ++ (openDelim ++ w))).drop (p.length + 14) = r := by
          rw [hdec]
          have hfl : p.length + 14 = (fullSpan p).length := by
            rw [fullSpan_length]
          rw [hfl, List.drop_left]
        have hr : r = (c :: u₂).drop (p.length + 14) ++ (openDelim ++ w) := by
          rw [← hrdoc]
          have hcc : c :: (u₂ ++ (openDelim ++ w)) =
              (c :: u₂) ++ (openDelim ++ w) := by simp
          rw [hcc, List.drop_append_eq_append_drop]
          have hz : p.length + 14 - (c :: u₂).length = 0 := by
            simp only [List.length_cons]
            omega
          rw [hz, List.drop_zero]
        have hdocdrop : ∀ m, (c :: (u₂ ++ (openDelim ++ w))).drop (p.length + 14 + m) =
            r.drop m := by
          intro m
          rw [← List.drop_drop, hrdoc]
        have hulen : ((c :: u₂).drop (p.length + 14)).length =
            u₂.length + 1 - (p.length + 14) := by
          simp [List.length_drop]
        obtain ⟨IHA, IHB⟩ := ih ((c :: u₂).drop (p.length + 14)) w
          (by omega)
          hw
          (by
            intro h' hh' hopen'
            rw [← hr] at hopen' ⊢
            rw [hulen] at hh'
            have hopen2 : openDelim <+:
                (c :: (u₂ ++ (openDelim ++ w))).drop (p.length + 14 + h') := by
              rw [hdocdrop h']
              exact hopen'
            obtain ⟨j₀, hja, hjb, hjc⟩ := hu (p.length + 14 + h')
              (by simp only [List.length_cons]; omega) hopen2
            simp only [List.length_cons] at hjb
            refine ⟨j₀ - (p.length + 14), by omega, by rw [hulen]; omega, ?_⟩
            rw [← hdocdrop (j₀ - (p.length + 14))]
            have hidx2 : p.length + 14 + (j₀ - (p.length + 14)) = j₀ := by omega
            rw [hidx2]
            exact hjc)
        constructor
        · intro pos s p₂ hmem
          rw [finditer_cons_match ho hfc pos] at hmem
          rcases List.mem_cons.mp hmem with heq | htail
          · simp only [Prod.mk.injEq] at heq
            obtain ⟨rfl, rfl⟩ := heq
            exact ⟨0, by omega, by simp only [List.length_cons]; omega⟩
          · obtain ⟨d', hd's, hd'b⟩ := IHA _ s p₂ (by rw [← hr]; exact htail)
            rw [hulen] at hd'b
            refine ⟨14 + p.length + d', by omega, by
              simp only [List.length_cons]
              omega⟩
        · intro rendered k
          rw [subst_cons_match rendered ho hfc k]
          obtain ⟨pre', hpre'⟩ := IHB rendered (k + 1)
          rw [← hr] at hpre'
          rw [hpre']
          exact ⟨(match rendered k with
            | some path => imageRef k path
            | none => fullSpan p) ++ pre', by rw [List.append_assoc]⟩
      · obtain ⟨IHA, IHB⟩ := ih u₂ w (by omega) hw (by
          intro h' hh' hopen'
          have hopen2 : openDelim <+:
              (c :: (u₂ ++ (openDelim ++ w))).drop (h' + 1) := by
            rw [List.drop_succ_cons]
            exact hopen'
          obtain ⟨j₀, hja, hjb, hjc⟩ := hu (h' + 1)
            (by simp only [List.length_cons]; omega) hopen2
          simp only [List.length_cons] at hjb
          refine ⟨j₀ - 1, by omega, by omega, ?_⟩
          have hidx : j₀ = (j₀ - 1) + 1 := by omega
          rw [hidx, List.drop_succ_cons] at hjc
          exact hjc)
        constructor
        · intro pos s p₂ hmem
          rw [finditer_cons_skip ho pos] at hmem
          obtain ⟨d', hd's, hd'b⟩ := IHA _ s p₂ hmem
          exact ⟨d' + 1, by omega, by simp only [List.length_cons]; omega⟩
        · intro rendered k
          rw [subst_cons_skip rendered ho k]
          obtain ⟨pre', hpre'⟩ := IHB rendered k
          rw [hpre']
          exact ⟨c :: pre', by rw [List.cons_append]⟩

theorem fence_no_newline {v z : List Char} {c : Char} {s : Nat} {p : List Char}
    (hc : c ≠ '\n')
    (hmem : (s, p) ∈ finditer 0 (v ++ ("```mermaid".toList ++ c :: z))) :
    s ≠ v.length := by
  intro hs
  obtain ⟨d, r', hsd, hdrop, _⟩ := finditer_mem_sound hmem
  have hd : d = v.length := by omega
  rw [hd, List.drop_left] at hdrop
  have h1 := congrArg (List.take 11) hdrop
  have hA : ("```mermaid".toList ++ c :: z).take 11 = "```mermaid".toList ++ [c] := by
    have h10 : (11 : Nat) = "```mermaid".toList.length + 1 := by decide
    rw [h10, List.take_append]
    simp
  have hB : (fullSpan p ++ r').take 11 = openDelim := by
    have hfs : fullSpan p ++ r' = openDelim ++ (p ++ (closeDelim ++ r')) := by
      simp [fullSpan]
    rw [hfs]
    have h11 : (11 : Nat) = openDelim.length + 0 := by decide
    rw [h11, List.take_append]
    simp
  rw [hA, hB] at h1
  have hopen : openDelim = "```mermaid".toList ++ ['\n'] := by decide
  rw [hopen] at h1
  have hcd := List.append_cancel_left h1
  simp only [List.cons.injEq, and_true] at hcd
  exact hc hcd

theorem outSegs_length :
    ∀ (ps : List (List Char)) (rendered : Nat → Option (List Char)) k,
      (outSegs rendered k ps).length = ps.length := by
  intro ps
  induction ps with
  | nil => intro rendered k; rfl
  | cons p ps ih =>
    intro rendered k
    simp only [outSegs, List.length_cons]
    rw [ih rendered (k + 1)]

-- ### The claims

/-- Claim C3: block indices assigned during extraction are reused unchanged by
the substitution pass over the same text: the trace of the matches the
substitution pass encounters, each with the counter value used to look up its
outcome, is exactly the enumeration (from 0, in order) of the full spans of
the matches found by the extraction pass. -/
theorem claim_C3 (doc : List Char) :
    substTrace 0 doc = List.enum ((finditer 0 doc).map (fun m => fullSpan m.2)) := by
  have h := substTrace_eq_enumFrom doc.length doc le_rfl 0
  rw [h]
  simp only [List.enum, payloads, List.map_map]
  rfl

/-- Claim C5: on a document in which the delimiter pattern has no match, the
substitution pass is the identity: the assembled text is equal to the original
document, for every outcome mapping and counter value. -/
theorem claim_C5 (doc : List Char) (hnb : finditer 0 doc = [])
    (rendered : Nat → Option (List Char)) (k : Nat) :
    subst rendered k doc = doc :=
  subst_of_no_match doc.length doc le_rfl hnb rendered k

/-- Witness for C5 at the concrete block-free document "hello world". -/
theorem claim_C5_witness :
    subst (fun i => some (pngPath i)) 0 "hello world".toList = "hello world".toList :=
  claim_C5 "hello world".toList (by decide) (fun i => some (pngPath i)) 0

/-- Claim C9 (frame property): there is a single list of literal text pieces,
independent of the outcome mapping, such that the original document is the
interleaving of those pieces with the untouched block spans, and for every
outcome mapping the assembled text is the interleaving of those same pieces
with the per-block segments; so every character outside the block spans
appears unchanged, in the same relative order, and only the delimited spans of
successfully rendered blocks are modified. -/
theorem claim_C9 (doc : List Char) :
    ∃ lits, lits.length = (payloads doc).length + 1 ∧
      doc = alternate lits ((payloads doc).map fullSpan) ∧
      ∀ rendered k, subst rendered k doc =
        alternate lits (outSegs rendered k (payloads doc)) := by
  obtain ⟨lits, hl, hs⟩ := subst_decomp doc.length doc le_rfl
  refine ⟨lits, hl, ?_, hs⟩
  have hid := subst_none_id doc.length doc le_rfl 0
  have h0 := hs (fun _ => none) 0
  rw [hid, outSegs_none] at h0
  exact h0

/-- Claim C1: for every document and every render-outcome mapping in which
block `K` has no recorded artifact and every other of the blocks does, the
assembled text contains block `K`'s original delimited span (opening
delimiter, payload, closing delimiter) unchanged as an exact substring, and
the assembled text is the interleaving of the document's literal pieces with
the per-block segments taken in extraction order, the `k`-th segment being
block `k`'s image reference when the mapping records an artifact for `k` and
the untouched span otherwise. -/
theorem claim_C1 (doc : List Char) (rendered : Nat → Option (List Char)) (K : Nat)
    (hK : K < (payloads doc).length) (hnone : rendered K = none)
    (hsome : ∀ i, i < (payloads doc).length → i ≠ K → (rendered i).isSome = true) :
    fullSpan ((payloads doc).get ⟨K, hK⟩) <:+: subst rendered 0 doc ∧
      ∃ lits, lits.length = (payloads doc).length + 1 ∧
        subst rendered 0 doc = alternate lits (outSegs rendered 0 (payloads doc)) := by
  obtain ⟨lits, hl, hs⟩ := subst_decomp doc.length doc le_rfl
  refine ⟨?_, lits, hl, hs rendered 0⟩
  rw [hs rendered 0]
  refine alternate_infix _ lits _ ?_ ?_
  · rw [hl, outSegs_length]
  · exact outSegs_mem_fullSpan (payloads doc) rendered 0 K hK (by simpa using hnone)

/-- Concrete two-block document for the C1 witness. -/
def docW1 : List Char := "A```mermaid\nX```B```mermaid\nY```C".toList

/-- Outcome mapping for the C1 witness: block 0 failed, block 1 succeeded. -/
def renderedW1 : Nat → Option (List Char) :=
  fun i => if i = 0 then none else some (pngPath i)

/-- Witness for C1: in a two-block document whose block 0 failed to render,
the assembled text keeps block 0's span and decomposes as claimed. -/
theorem claim_C1_witness :
    fullSpan ((payloads docW1).get ⟨0, by decide⟩) <:+: subst renderedW1 0 docW1 ∧
      ∃ lits, lits.length = (payloads docW1).length + 1 ∧
        subst renderedW1 0 docW1 = alternate lits (outSegs renderedW1 0 (payloads docW1)) :=
  claim_C1 docW1 renderedW1 0 (by decide) rfl (by decide)

/-- Claim C4: when the outcome mapping records a success, with the script's
artifact path, for every extracted block, the assembled text is the
interleaving of the document's literal pieces with exactly one image
reference per block in document order, and no substring of the assembled text
matches the diagram-block delimiter pattern any more. -/
theorem claim_C4 (doc : List Char) (rendered : Nat → Option (List Char))
    (hall : ∀ i, i < (payloads doc).length → rendered i = some (pngPath i)) :
    (∃ lits, lits.length = (payloads doc).length + 1 ∧
      subst rendered 0 doc = alternate lits
        ((List.range (payloads doc).length).map (fun i => imageRef i (pngPath i)))) ∧
      ¬ ∃ u x v, subst rendered 0 doc = u ++ (openDelim ++ x ++ closeDelim) ++ v := by
  have hagree : subst rendered 0 doc = subst (fun i => some (pngPath i)) 0 doc :=
    subst_agree doc.length doc le_rfl _ _ 0
      (fun i h1 h2 => by rw [hall i (by omega)])
  constructor
  · obtain ⟨lits, hl, hs⟩ := subst_decomp doc.length doc le_rfl
    refine ⟨lits, hl, ?_⟩
    rw [hs rendered 0,
      outSegs_all_some (payloads doc) rendered 0 (fun i h1 h2 => hall i (by omega))]
    congr 1
    apply List.map_congr_left
    intro q _
    simp
  · rw [hagree]
    exact NoSpan_no_decomp (subst_no_span doc.length doc le_rfl 0)

/-- Concrete one-block document for the C4 witness. -/
def docW4 : List Char := "A```mermaid\nX```B".toList

/-- Outcome mapping for the C4 witness: every block succeeded. -/
def renderedW4 : Nat → Option (List Char) :=
  fun i => if i < 1 then some (pngPath i) else none

/-- Witness for C4 at a concrete document whose single block rendered. -/
theorem claim_C4_witness :
    (∃ lits, lits.length = (payloads docW4).length + 1 ∧
      subst renderedW4 0 docW4 = alternate lits
        ((List.range (payloads docW4).length).map (fun i => imageRef i (pngPath i)))) ∧
      ¬ ∃ u x v, subst renderedW4 0 docW4 = u ++ (openDelim ++ x ++ closeDelim) ++ v :=
  claim_C4 docW4 renderedW4 (by decide)

/-- Claim C8: extraction yields matches that are real, pairwise
non-overlapping and in document order (each match ends before the next one
starts), and lazy: within a match's span no closing delimiter occurs strictly
before the one that ends it, so two adjacent blocks are never merged. -/
theorem claim_C8 (doc : List Char) :
    List.Pairwise (fun a b : Nat × List Char => a.1 + a.2.length + 14 ≤ b.1)
      (finditer 0 doc) ∧
      ∀ s p, (s, p) ∈ finditer 0 doc →
        (∃ r', doc.drop s = openDelim ++ p ++ closeDelim ++ r') ∧
          ∀ q, q < p.length → ¬ closeDelim <+: doc.drop (s + 11 + q) := by
  constructor
  · exact finditer_pairwise doc.length doc le_rfl 0
  · intro s p hmem
    obtain ⟨d, r', hsd, hdrop, hlazy⟩ := finditer_mem_sound hmem
    have hd : d = s := by omega
    rw [hd] at hdrop hlazy
    constructor
    · exact ⟨r', by simpa [fullSpan, List.append_assoc] using hdrop⟩
    · exact hlazy

/-- Concrete document with two adjacent blocks for the C8 witness. -/
def docW8 : List Char := "```mermaid\nA``````mermaid\nB```".toList

/-- Witness for C8: the two adjacent blocks of the concrete document are
extracted as separate, ordered, non-overlapping lazy matches. -/
theorem claim_C8_witness :
    List.Pairwise (fun a b : Nat × List Char => a.1 + a.2.length + 14 ≤ b.1)
      (finditer 0 docW8) ∧
      ((∃ r', docW8.drop 0 = openDelim ++ "A".toList ++ closeDelim ++ r') ∧
        ∀ q, q < "A".toList.length → ¬ closeDelim <+: docW8.drop (0 + 11 + q)) :=
  ⟨(claim_C8 docW8).1, (claim_C8 docW8).2 0 "A".toList (by decide)⟩

/-- Counterexample to C2 as stated: in the environment where the renderer
completes with exit status 1 but the artifact file exists on disk, the script
records a success, whereas the claim demands that success be recorded only
when the exit status is zero.  The recording step checks only
`os.path.exists`; the captured exit status is never consulted. -/
theorem claim_C2_counterexample :
    ¬ ∀ e : BlockEnv, recordsSuccess e = true ↔
      (e.runRaises = false ∧ e.returncode = 0 ∧ e.artifactExists = true) := by
  intro h
  have h1 := (h ⟨false, false, 1, true⟩).mp rfl
  exact absurd h1.2.1 (by decide)

/-- Claim C2 (amended): success is recorded for a block if and only if the
renderer invocation completed without an exception AND the artifact file
exists on disk afterwards; the renderer's exit status plays no role. -/
theorem claim_C2_amended (e : BlockEnv) :
    recordsSuccess e = true ↔ (e.runRaises = false ∧ e.artifactExists = true) := by
  obtain ⟨w, rr, rc, ae⟩ := e
  cases rr <;> cases ae <;> simp [recordsSuccess]

/-- Claim C6: the process exit code is 0 exactly when the final converter
invocation exits 0, the success message is printed exactly in that case, and
the result is independent of the per-block render outcomes. -/
theorem claim_C6 (rendered rendered' : Nat → Option (List Char)) (ret : Int) :
    scriptExit rendered ret = scriptExit rendered' ret ∧
      ((scriptExit rendered ret).1 = 0 ↔ ret = 0) ∧
      ((scriptExit rendered ret).2 = true ↔ ret = 0) := by
  unfold scriptExit
  by_cases h : ret = 0
  · subst h
    simp
  · simp [h]

/-- Counterexample to C7 as stated: a per-block failure while writing the
scratch file aborts the whole run (the write is outside the `try` block), so
a later block is never attempted. -/
theorem claim_C7_counterexample :
    renderLoop (fun _ => ⟨true, false, 0, false⟩) 0 2 = none := rfl

/-- Claim C7 (amended): every exception arising from the renderer invocation
itself (inside the `try`: the subprocess call, its timeout, the artifact
check) is caught within that iteration and processing continues with the next
block; but an exception while writing the block's scratch file is outside the
`try` and aborts the run.  When no scratch-file write raises, the loop
completes and records every block's outcome in order. -/
theorem claim_C7_amended (env : Nat → BlockEnv) :
    ∀ m i, (∀ q, q < m → (env (i + q)).writeRaises = false) →
      renderLoop env i m =
        some ((List.range m).map (fun q => recordsSuccess (env (i + q)))) := by
  intro m
  induction m with
  | zero => intro i _; rfl
  | succ m ih =>
    intro i hq
    have h0 : (env i).writeRaises = false := by
      have := hq 0 (by omega)
      simpa using this
    rw [renderLoop, h0]
    simp only [Bool.false_eq_true, if_false]
    rw [ih (i + 1) (fun q hq' => by
      have h2 := hq (q + 1) (by omega)
      rwa [show i + (q + 1) = i + 1 + q by omega] at h2)]
    dsimp only [Option.map]
    congr 1
    rw [List.range_succ_eq_map]
    simp only [List.map_cons, List.map_map]
    congr 1
    apply List.map_congr_left
    intro q _
    have hqi : i + 1 + q = i + (q + 1) := by omega
    rw [hqi]
    rfl

/-- Per-block environments for the C7 witness: block 0's subprocess raises
(caught, recorded as failure), block 1 exits non-zero with the artifact
present, block 2 succeeds; no scratch-file write raises. -/
def envW7 : Nat → BlockEnv :=
  fun i => if i = 0 then ⟨false, true, 0, false⟩
    else if i = 1 then ⟨false, false, 1, true⟩
    else ⟨false, false, 0, true⟩

/-- Witness for the amended C7: the loop survives a caught subprocess
exception in block 0 and processes all three blocks. -/
theorem claim_C7_witness :
    renderLoop envW7 0 3 = some [false, true, true] := by
  have h := claim_C7_amended envW7 3 0 (by decide)
  rw [h]
  decide

/-- Concrete document refuting C10 as stated: position 12 carries an opening
delimiter with no closing delimiter anywhere after it, yet the earlier
unterminated opening delimiter at position 0 uses the trailing delimiter's
backticks as its closing fence, so assembly rewrites that region. -/
def docX10 : List Char := "```mermaid\nA```mermaid\nW".toList

/-- Counterexample to C10 as stated: `docX10` contains an opening delimiter
(at position 12) with no subsequent closing delimiter, but the trailing text
from that position does not appear in the assembled output at all. -/
theorem claim_C10_counterexample :
    openDelim <+: docX10.drop 12 ∧
      ¬ closeDelim <:+: docX10.drop 23 ∧
      ¬ (docX10.drop 12) <:+: subst (fun i => some (pngPath i)) 0 docX10 := by
  decide

/-- Claim C10 (amended): consider a document `u ++ openDelim ++ w` whose
trailing opening delimiter is unterminated (no closing delimiter occurs in
`w`) and in which every opening-delimiter occurrence inside `u` is followed
by a closing delimiter lying wholly within `u`.  Then extraction puts every
block entirely inside `u` (the trailing text contributes no block), no error
is raised (extraction and assembly are total), and for every outcome mapping
the assembled output ends with the trailing `openDelim ++ w` unchanged.
Moreover an opening fence whose language tag is not immediately followed by a
newline is never the start of an extracted block. -/
theorem claim_C10_amended (u w : List Char)
    (hw : ¬ closeDelim <:+: w)
    (hu : ∀ h, h < u.length → openDelim <+: (u ++ (openDelim ++ w)).drop h →
      ∃ j, j < u.length ∧ h + 11 ≤ j ∧ j + 3 ≤ u.length ∧
        closeDelim <+: (u ++ (openDelim ++ w)).drop j) :
    (∀ s p, (s, p) ∈ finditer 0 (u ++ (openDelim ++ w)) →
      s + p.length + 14 ≤ u.length) ∧
      (∀ rendered k, ∃ pre,
        subst rendered k (u ++ (openDelim ++ w)) = pre ++ (openDelim ++ w)) ∧
      (∀ (v z : List Char) (c : Char) (s : Nat) (p : List Char), c ≠ '\n' →
        (s, p) ∈ finditer 0 (v ++ ("```mermaid".toList ++ c :: z)) → s ≠ v.length) := by
  have hw' : ∀ j, ¬ closeDelim <+: w.drop j := by
    intro j hj
    exact hw (hj.isInfix.trans (List.drop_suffix j w).isInfix)
  obtain ⟨A, B⟩ := trailing_preserved u.length u w le_rfl hw'
    (fun h hh ho => by
      obtain ⟨j, _, h1, h2, h3⟩ := hu h hh ho
      exact ⟨j, h1, h2, h3⟩)
  refine ⟨?_, B, fun v z c s p hc hmem => fence_no_newline hc hmem⟩
  intro s p hmem
  obtain ⟨d, hd, hb⟩ := A 0 s p hmem
  omega

/-- Well-formed head for the C10 witness: one complete block inside `u`. -/
def uW10 : List Char := "x```mermaid\nA```y".toList

/-- Trailing payload without a closing delimiter for the C10 witness. -/
def wW10 : List Char := "TAIL".toList

/-- Witness for the amended C10: with one complete block before it, the
trailing unterminated opening delimiter survives assembly verbatim. -/
theorem claim_C10_witness :
    ∃ pre, subst (fun i => some (pngPath i)) 0 (uW10 ++ (openDelim ++ wW10)) =
      pre ++ (openDelim ++ wW10) :=
  (claim_C10_amended uW10 wW10 (by decide) (by decide)).2.1
    (fun i => some (pngPath i)) 0
